import Mathlib

/-!
Verification of the `tonal` repository (symbolic music manipulation).

This file gives a shallow embedding of the core of the repository:

* `src/tonal/chords.py` — chord-symbol parsing (`parse_root`, `chord_to_notes`),
  the root-note and quality/extension interval tables with their alias pass
  (`add_aliases`), the two chord renderers (`play_simultaneously`,
  `play_arpeggio`) emitting mido-style messages whose `time` field is a
  *delta* in ticks, and the renderer registry
  (`register_chord_render`, `resolve_chord_render`).
* `src/tonal/counterpoint.py` — the scale-relative translation engine
  (`get_scale_notes`, `_translate_note_in_scale`, `translate_notes_in_scale`,
  `translate_in_scale`) over a faithful model of music21 scale pitch
  enumeration (spelled pitch names, `getPitches` over a bounded window).
* `src/tonal/util.py` — the stream concatenation utilities
  (`add_streams`, `concatenate_streams`).

Python strings are modelled as `List Char` (Python strings are character
sequences); Python `dict`s as insertion-ordered association lists; functions
that raise as `Option`/`Except`-valued functions.
-/

/-- Python strings are sequences of characters. -/
abbrev Str := List Char

instance {ε α : Type} [DecidableEq ε] [DecidableEq α] : DecidableEq (Except ε α) :=
  fun a b =>
  match a, b with
  | .error e1, .error e2 =>
    if h : e1 = e2 then .isTrue (by rw [h]) else .isFalse (fun hh => h (Except.error.inj hh))
  | .error _, .ok _ => .isFalse (fun hh => Except.noConfusion hh)
  | .ok _, .error _ => .isFalse (fun hh => Except.noConfusion hh)
  | .ok a1, .ok a2 =>
    if h : a1 = a2 then .isTrue (by rw [h]) else .isFalse (fun hh => h (Except.ok.inj hh))

/-! ## chords.py: mido messages and the two chord renderers -/

/-- The message kinds emitted by the renderers (mido `Message` types). -/
inductive MKind where
  | note_on
  | note_off
  | program_change
deriving DecidableEq, Repr

/-- A mido `Message` as used by `chords.py`: kind, MIDI note number,
velocity, and the `time` field, which in mido is a *delta* time in ticks
relative to the previous message in the track. -/
structure Msg where
  kind : MKind
  note : Nat
  velocity : Nat
  time : Int
deriving DecidableEq, Repr

/-- Total elapsed ticks of a message list under mido's delta-time
semantics: the sum of all `time` fields. -/
def totalTicks (msgs : List Msg) : Int :=
  (msgs.map Msg.time).sum

/-- Absolute (cumulative) tick position of each message in a track,
under mido's delta-time semantics. -/
def absTimes (msgs : List Msg) : List Int :=
  (msgs.scanl (fun acc m => acc + m.time) 0).drop 1

/-- `play_simultaneously` (chords.py lines 155-165): appends a `note_on`
with `time=0` for every pitch, then a `note_off` carrying `time=duration`
for the first pitch and `time=0` for the remaining pitches.  On an empty
pitch list the Python code raises `StopIteration` (`next` on an exhausted
iterator), modelled as `none`. -/
def play_simultaneously (notes : List Nat) (duration : Int) (velocity : Nat) :
    Option (List Msg) :=
  match notes with
  | [] => none
  | n0 :: rest =>
    some ((n0 :: rest).map (fun n => ⟨.note_on, n, velocity, 0⟩)
      ++ ⟨.note_off, n0, velocity, duration⟩
        :: rest.map (fun n => ⟨.note_off, n, velocity, 0⟩))

/-- The loop body of `play_arpeggio`: `current_time` starts at `0`; for each
note the code appends a `note_on` with `time=current_time`, increments
`current_time` by the slice, and appends a `note_off` with the incremented
`time=current_time`. -/
def arpLoop (velocity : Nat) (slice : Int) : Int → List Nat → List Msg
  | _, [] => []
  | cur, n :: rest =>
    ⟨.note_on, n, velocity, cur⟩
      :: ⟨.note_off, n, velocity, cur + slice⟩
      :: arpLoop velocity slice (cur + slice) rest

/-- `play_arpeggio` (chords.py lines 169-179): `note_duration = duration //
len(notes)` (Python floor division; `ZeroDivisionError` on an empty list,
modelled as `none`), then the loop `arpLoop`. -/
def play_arpeggio (notes : List Nat) (duration : Int) (velocity : Nat) :
    Option (List Msg) :=
  match notes with
  | [] => none
  | _ :: _ => some (arpLoop velocity (duration.ediv (notes.length : Int)) 0 notes)

/-! ## chords.py: root and quality tables -/

/-- `root_notes` (chords.py lines 37-55): root names to MIDI note numbers. -/
def root_notes : List (Str × Nat) :=
  [("C".data, 60), ("C#".data, 61), ("Db".data, 61), ("D".data, 62),
   ("D#".data, 63), ("Eb".data, 63), ("E".data, 64), ("F".data, 65),
   ("F#".data, 66), ("Gb".data, 66), ("G".data, 67), ("G#".data, 68),
   ("Ab".data, 68), ("A".data, 69), ("A#".data, 70), ("Bb".data, 70),
   ("B".data, 71)]

/-- `quality_extensions` (chords.py lines 60-84) before the alias pass:
quality/extension strings to interval lists. -/
def qualityExtensionsBase : List (Str × List Nat) :=
  [("".data, [0, 4, 7]),
   ("maj".data, [0, 4, 7]),
   ("min".data, [0, 3, 7]),
   ("dim".data, [0, 3, 6]),
   ("aug".data, [0, 4, 8]),
   ("7".data, [0, 4, 7, 10]),
   ("maj7".data, [0, 4, 7, 11]),
   ("min7".data, [0, 3, 7, 10]),
   ("minmaj7".data, [0, 3, 7, 11]),
   ("dim7".data, [0, 3, 6, 9]),
   ("hdim7".data, [0, 3, 6, 10]),
   ("aug7".data, [0, 4, 8, 10]),
   ("6".data, [0, 4, 7, 9]),
   ("min6".data, [0, 3, 7, 9]),
   ("9".data, [0, 4, 7, 10, 14]),
   ("maj9".data, [0, 4, 7, 11, 14]),
   ("min9".data, [0, 3, 7, 10, 14]),
   ("11".data, [0, 4, 7, 10, 14, 17]),
   ("maj11".data, [0, 4, 7, 11, 14, 17]),
   ("min11".data, [0, 3, 7, 10, 14, 17]),
   ("13".data, [0, 4, 7, 10, 14, 17, 21]),
   ("maj13".data, [0, 4, 7, 11, 14, 17, 21]),
   ("min13".data, [0, 3, 7, 10, 14, 17, 21])]

/-- Python `str.replace(pat, rep)` on character lists (replaces every
occurrence of `pat`, scanning left to right), fuelled for structural
recursion; the fuel is the input length, enough since a non-empty pattern
consumes at least one character per step. -/
def pyReplaceAux (pat rep : Str) : Nat → Str → Str
  | 0, l => l
  | _ + 1, [] => []
  | fuel + 1, c :: rest =>
    if pat.isPrefixOf (c :: rest) then
      rep ++ pyReplaceAux pat rep fuel ((c :: rest).drop pat.length)
    else
      c :: pyReplaceAux pat rep fuel rest

/-- Python `s.replace(pat, rep)`; the repository only calls it with
non-empty patterns. -/
def pyReplace (s pat rep : Str) : Str :=
  if pat = [] then s else pyReplaceAux pat rep s.length s

/-- `add_aliases` (chords.py lines 90-100): for each key of the base table,
a key starting with `maj` yields an alias with every `maj` replaced by `M`;
otherwise a key starting with `min` yields `min`→`m`; otherwise a key
starting with `dim` yields `dim`→`°`; other keys yield nothing. -/
def add_aliases (qe : List (Str × List Nat)) : List (Str × List Nat) :=
  qe.filterMap (fun kv =>
    if "maj".data.isPrefixOf kv.1 then
      some (pyReplace kv.1 "maj".data "M".data, kv.2)
    else if "min".data.isPrefixOf kv.1 then
      some (pyReplace kv.1 "min".data "m".data, kv.2)
    else if "dim".data.isPrefixOf kv.1 then
      some (pyReplace kv.1 "dim".data "°".data, kv.2)
    else none)

/-- The alias entries added by `quality_extensions.update(dict(add_aliases(...)))`
(chords.py line 100); the generator iterates the base table only, since
`dict(...)` consumes it before `update` runs. -/
def aliasEntries : List (Str × List Nat) :=
  add_aliases qualityExtensionsBase

/-- Association-list lookup modelling Python `dict.get` (keys are unique in
each table). -/
def dictGet {α : Type} (d : List (Str × α)) (k : Str) : Option α :=
  (d.find? (fun kv => decide (kv.1 = k))).map (fun kv => kv.2)

/-- Lookup in the final `quality_extensions` dict: the base table updated
with the alias entries (an updating key overrides the base entry; a fresh
key is appended). -/
def resolve_intervals (q : Str) : Option (List Nat) :=
  match dictGet aliasEntries q with
  | some v => some v
  | none => dictGet qualityExtensionsBase q

/-! ## chords.py: chord-symbol parsing -/

/-- Character class `[A-Ga-g]` of the root regex. -/
def isNoteLetter (c : Char) : Bool :=
  ('A' ≤ c && c ≤ 'G') || ('a' ≤ c && c ≤ 'g')

/-- `parse_root` (chords.py lines 108-113): match `([A-Ga-g][#b]?)` at the
start of the chord string; `none` models the `ValueError` raised when there
is no match. -/
def parse_root (chord : Str) : Option Str :=
  match chord with
  | [] => none
  | c :: rest =>
    if isNoteLetter c then
      match rest with
      | c2 :: _ =>
        if c2 = '#' || c2 = 'b' then some [c, c2] else some [c]
      | [] => some [c]
    else none

/-- `chord_to_notes` (chords.py lines 116-136): parse the root, strip it to
get the quality/extension, look up the root MIDI number and the interval
list, and return root + interval for each interval.  Each `raise` is
modelled as `Except.error` with the raised message. -/
def chord_to_notes (chord : Str) : Except Str (List Nat) :=
  match parse_root chord with
  | none => .error ("Invalid chord: ".data ++ chord)
  | some root =>
    let quality_extension := chord.drop root.length
    match dictGet root_notes root with
    | none => .error ("Unknown root note: ".data ++ root)
    | some root_midi =>
      match resolve_intervals quality_extension with
      | none => .error ("Unknown quality/extension: ".data ++ quality_extension)
      | some intervals => .ok (intervals.map (fun i => root_midi + i))

/-! ## chords.py: renderer registry -/

/-- A Python renderer function as seen by the registry: an identity plus
its `__name__` attribute. -/
structure PyRenderer where
  uid : Nat
  fname : Str
deriving DecidableEq, Repr

/-- The decorated `play_simultaneously` function object. -/
def playSimultaneouslyFn : PyRenderer := ⟨0, "play_simultaneously".data⟩

/-- The decorated `play_arpeggio` function object. -/
def playArpeggioFn : PyRenderer := ⟨1, "play_arpeggio".data⟩

/-- Python `d[k] = v` on an insertion-ordered dict: replace in place if the
key is present, otherwise append. -/
def dictInsert {α : Type} (d : List (Str × α)) (k : Str) (v : α) :
    List (Str × α) :=
  if d.any (fun kv => decide (kv.1 = k)) then
    d.map (fun kv => if kv.1 = k then (k, v) else kv)
  else d ++ [(k, v)]

/-- `register_chord_render` (chords.py lines 148-152): computes
`name = name or chord_renderer.__name__` but then stores the renderer under
`chord_renderer.__name__` regardless. -/
def register_chord_render (d : List (Str × PyRenderer)) (r : PyRenderer)
    (nm : Option Str) : List (Str × PyRenderer) :=
  let name : Str := nm.getD r.fname
  dictInsert d r.fname r

/-- The module-level `chord_renders` registry after the two decorated
registrations (`play_simultaneously` first, then `play_arpeggio`). -/
def chord_renders : List (Str × PyRenderer) :=
  register_chord_render (register_chord_render [] playSimultaneouslyFn none)
    playArpeggioFn none

/-- The argument of `resolve_chord_render`: either a registered name or a
direct function reference. -/
inductive RenderArg where
  | byName (s : Str)
  | byFn (r : PyRenderer)

/-- The error message built for an unknown renderer name (chords.py lines
186-191).  Only the first of the three adjacent string literals is an
f-string, so the second literal's braces survive verbatim in the message. -/
def unknownRendererMsg (nm : Str) : Str :=
  "Unknown chord renderer: ".data ++ nm ++ ". ".data
    ++ "(Available: \x7b\x22, \x22.join(chord_renders)\x7d). ".data
    ++ "You can register a new chord renderer with `register_chord_render`.".data

/-- `resolve_chord_render` (chords.py lines 182-193): a string is looked up
in the registry (`ValueError` when absent); anything else is returned
unchanged. -/
def resolve_chord_render (a : RenderArg) : Except Str PyRenderer :=
  match a with
  | .byName nm =>
    match dictGet chord_renders nm with
    | some r => .ok r
    | none => .error (unknownRendererMsg nm)
  | .byFn r => .ok r

/-- Helper for closed-form statements: the error message of a resolution,
when it fails. -/
def resolveErrMsg (a : RenderArg) : Option Str :=
  match resolve_chord_render a with
  | .error e => some e
  | .ok _ => none

/-- Boolean containment of a contiguous character segment (`pat` occurs
inside `l`). -/
def containsSeg (pat l : Str) : Bool :=
  l.tails.any (fun t => pat.isPrefixOf t)

/-- Decidable per-entry check behind the table-driven chord theorem: the
chord `root ++ quality` resolves to a non-empty strictly ascending pitch
list whose head is the root's table pitch. -/
def chordCheck (rp : Str × Nat) (qv : Str × List Nat) : Bool :=
  match chord_to_notes (rp.1 ++ qv.1) with
  | .ok out =>
    !out.isEmpty && decide (List.Pairwise (· < ·) out) && decide (out.head? = some rp.2)
  | .error _ => false

/-- Decidable per-entry check behind the decomposition theorem: the chord
`root ++ quality` parses its root back exactly and is accepted. -/
def decompCheck (rp : Str × Nat) (qv : Str × List Nat) : Bool :=
  decide (parse_root (rp.1 ++ qv.1) = some rp.1) &&
  (match chord_to_notes (rp.1 ++ qv.1) with
   | .ok _ => true
   | .error _ => false)

/-- The alias-key substitution described by the spec (and implemented by
`add_aliases`): `maj`→`M`, else `min`→`m`, else `dim`→`°`. -/
def aliasKey (k : Str) : Str :=
  if "maj".data.isPrefixOf k then pyReplace k "maj".data "M".data
  else if "min".data.isPrefixOf k then pyReplace k "min".data "m".data
  else if "dim".data.isPrefixOf k then pyReplace k "dim".data "°".data
  else k

/-- Decidable per-entry check behind the alias-consistency theorem. -/
def aliasCheck (qv : Str × List Nat) : Bool :=
  !("maj".data.isPrefixOf qv.1 || "min".data.isPrefixOf qv.1
      || "dim".data.isPrefixOf qv.1) ||
  (decide ((aliasKey qv.1, qv.2) ∈ aliasEntries) &&
   decide (resolve_intervals (aliasKey qv.1) = resolve_intervals qv.1) &&
   decide (resolve_intervals qv.1 = some qv.2))

/-! ## counterpoint.py: spelled pitches and the music21 scale model

music21 identifies a note by its *spelled* name with octave
(`nameWithOctave`, e.g. `F#4`, `E-4`): a diatonic letter, an accidental
alteration, and an octave.  `counterpoint.py` manipulates notes only
through these names and through `Scale.getPitches`, which enumerates the
scale's spelled pitches between two boundary pitches, inclusive, in
ascending pitch order. -/

/-- A spelled pitch class: a diatonic letter (0=C, 1=D, 2=E, 3=F, 4=G,
5=A, 6=B) and an accidental alteration in semitones (`-1` = flat,
`1` = sharp). -/
structure PitchName where
  letter : Fin 7
  alter : Int
deriving DecidableEq, Repr

/-- A note name with octave (music21 `nameWithOctave`), e.g. `C4`. -/
structure NoteName where
  name : PitchName
  octave : Int
deriving DecidableEq, Repr

instance : Inhabited NoteName := ⟨⟨(0 : Fin 7), 0⟩, 0⟩

/-- Semitone offset of each natural letter within an octave
(C, D, E, F, G, A, B). -/
def letterSemis (l : Fin 7) : Int :=
  match l.val with
  | 0 => 0
  | 1 => 2
  | 2 => 4
  | 3 => 5
  | 4 => 7
  | 5 => 9
  | _ => 11

/-- music21 pitch space of a note name: `C4 = 60`. -/
def NoteName.ps (nn : NoteName) : Int :=
  12 * (nn.octave + 1) + letterSemis nn.name.letter + nn.name.alter

/-- A music21 scale, reduced to what `counterpoint.py` uses: its ordered
list of spelled degrees.  Each degree carries its spelling and the octave
carry relative to the tonic's cycle (1 for degrees whose letter wrapped
past B, e.g. the C# of E major, else 0). -/
structure ScaleE where
  degrees : List (PitchName × Int)
deriving DecidableEq, Repr

/-- Semitone contribution of a degree inside one scale cycle: the pitch
space of the degree at cycle 0, minus `12 * (0 + 1)`. -/
def degContribution (d : PitchName × Int) : Int :=
  letterSemis d.1.letter + d.1.alter + 12 * d.2

/-- The contributions of all degrees of a scale, in degree order. -/
def contribs (sc : ScaleE) : List Int :=
  sc.degrees.map degContribution

/-- The scale's pitch at global degree index `k`: cycle `k / n` of degree
`k % n` (Euclidean: the enumeration extends to all octaves in both
directions). -/
def scalePitchAt (sc : ScaleE) (k : Int) : NoteName :=
  let n : Int := sc.degrees.length
  let deg := sc.degrees.getD (k.emod n).toNat (⟨(0 : Fin 7), 0⟩, 0)
  ⟨deg.1, k.ediv n + deg.2⟩

/-- Integer interval `[a, b]` as an ascending list. -/
def intRange (a b : Int) : List Int :=
  (List.range (b + 1 - a).toNat).map (fun (i : Nat) => a + (i : Int))

/-- music21 `Scale.getPitches(lo, hi)`: the scale's spelled pitches whose
pitch space lies in `[lo, hi]`, in ascending pitch order.  The candidate
index range is generous enough to cover every hit for scales whose degree
contributions lie in `[-12, 24)`. -/
def getPitches (sc : ScaleE) (lo hi : Int) : List NoteName :=
  let n : Int := sc.degrees.length
  let kLow := n * ((lo - 36).ediv 12)
  let kHigh := n * (hi.ediv 12) + n
  ((intRange kLow kHigh).filter
      (fun k => lo ≤ (scalePitchAt sc k).ps && (scalePitchAt sc k).ps ≤ hi)).map
    (scalePitchAt sc)

/-- `get_scale_notes` (counterpoint.py lines 88-102): the names of the
scale's pitches within one octave either side of the input note
(`getPitches(pitch.transpose(-12), pitch.transpose(12))`, boundaries
compared by pitch space). -/
def get_scale_notes (input_note : NoteName) (input_scale : ScaleE) :
    List NoteName :=
  getPitches input_scale (input_note.ps - 12) (input_note.ps + 12)

/-- `_translate_note_in_scale` (counterpoint.py lines 110-186): build the
window around the input note, locate the note's exact name+octave in it
(`ValueError` when absent, modelled as `Except.error`), shift the index by
`translation` with Python's always-non-negative modulo, and return the name
at the new index. -/
def _translate_note_in_scale (input_note : NoteName) (translation : Int)
    (input_scale : ScaleE) : Except Str NoteName :=
  let scale_pitch_names := get_scale_notes input_note input_scale
  if scale_pitch_names.indexOf input_note < scale_pitch_names.length then
    let index : Int := scale_pitch_names.indexOf input_note
    let new_index := (index + translation).emod scale_pitch_names.length
    .ok (scale_pitch_names.getD new_index.toNat default)
  else
    .error "The input note is not in the specified scale.".data

/-- `translate_notes_in_scale` (counterpoint.py lines 231-268): translate
every note of one track independently, each anchoring its own window. -/
def translate_notes_in_scale (input_notes : List NoteName) (translation : Int)
    (input_scale : ScaleE) : Except Str (List NoteName) :=
  input_notes.mapM (fun nn => _translate_note_in_scale nn translation input_scale)

/-- The shapes accepted by `translate_in_scale`: one track, or a list of
tracks (the Python code distinguishes them by `isinstance` shape checks;
a bare single note is wrapped into a one-note track before reaching the
shapes modelled here). -/
inductive TracksIn where
  | single (t : List NoteName)
  | multi (ts : List (List NoteName))

/-- The corresponding outputs: one stream, or a list of streams. -/
inductive TracksOut where
  | single (t : List NoteName)
  | multi (ts : List (List NoteName))
deriving DecidableEq, Repr

/-- `translate_in_scale` (counterpoint.py lines 271-350): a list of tracks
is translated track by track; a single track is translated directly. -/
def translate_in_scale (tracks : TracksIn) (translation : Int)
    (input_scale : ScaleE) : Except Str TracksOut :=
  match tracks with
  | .multi ts => do
    let translated_tracks ←
      ts.mapM (fun track => translate_notes_in_scale track translation input_scale)
    return .multi translated_tracks
  | .single t => do
    let r ← translate_notes_in_scale t translation input_scale
    return .single r

/-! ## util.py: stream concatenation -/

/-- `add_streams` (util.py lines 326-348): append every element of every
stream, in order, into one stream. -/
def add_streams {α : Type} (list_of_streams : List (List α)) : List α :=
  list_of_streams.flatten

/-- Python `zip(*lists)` truncated to the shortest list: the common length. -/
def minLen {α : Type} (ls : List (List α)) : Nat :=
  match ls with
  | [] => 0
  | l :: rest => rest.foldl (fun a t => min a t.length) l.length

/-- Python `zip(*ls)`: the list of `i`-th elements of every list, for `i`
up to the shortest length; `zip()` of no iterables is empty. -/
def pyZip {α : Type} [Inhabited α] (ls : List (List α)) : List (List α) :=
  match ls with
  | [] => []
  | _ :: _ => (List.range (minLen ls)).map (fun i => ls.map (fun t => t.getD i default))

/-- `concatenate_streams` (util.py lines 351-374):
`list(map(add_streams, zip(*streams_list)))` — the `i`-th output stream is
the concatenation of the `i`-th streams of the inputs. -/
def concatenate_streams {α : Type}
    (streams_list : List (List (List α))) : List (List α) :=
  (pyZip streams_list).map add_streams

/-- Modelled from the spec: sequence-of-steps translation.  `src/` only
contains the single-step `translate_in_scale` (counterpoint.py) and the
track-wise concatenation helper `concatenate_streams` (util.py); the
dispatch that accepts an ordered sequence of steps is not under `src/`.
Following the spec's words: "translate the full input independently for
each step value, producing one result per step, then concatenate results
track-wise: for multi-track input, the i-th output track is the ordered
concatenation of the i-th track from each per-step result, in step
order". -/
def translate_seq_in_scale (tracks : TracksIn) (steps : List Int)
    (input_scale : ScaleE) : Except Str TracksOut :=
  match tracks with
  | .multi ts => do
    let results ←
      steps.mapM (fun s =>
        ts.mapM (fun track => translate_notes_in_scale track s input_scale))
    return .multi (concatenate_streams results)
  | .single t => do
    let results ← steps.mapM (fun s => translate_notes_in_scale t s input_scale)
    return .single (add_streams results)

/-! ## Scale constructors (music21 `MajorScale`, `HarmonicMinorScale`) -/

/-- Spell the degrees of a scale from a tonic and its ascending semitone
offsets: degree `i` uses the `i`-th letter after the tonic's (wrapping past
B with an octave carry) with the alteration that realises the offset. -/
def mkScaleDegrees (tonic : PitchName) (offsets : List Int) :
    List (PitchName × Int) :=
  offsets.enum.map (fun p =>
    let lv : Nat := tonic.letter.val + p.1
    let letter : Fin 7 := ⟨lv % 7, by omega⟩
    let carry : Int := if lv < 7 then 0 else 1
    let alter : Int :=
      p.2 + letterSemis tonic.letter + tonic.alter - letterSemis letter - 12 * carry
    (⟨letter, alter⟩, carry))

/-- music21 `MajorScale`: W-W-H-W-W-W-H from the tonic. -/
def MajorScale (tonic : PitchName) : ScaleE :=
  ⟨mkScaleDegrees tonic [0, 2, 4, 5, 7, 9, 11]⟩

/-- music21 `HarmonicMinorScale`: natural minor with a raised seventh. -/
def HarmonicMinorScale (tonic : PitchName) : ScaleE :=
  ⟨mkScaleDegrees tonic [0, 2, 3, 5, 7, 8, 11]⟩

/-- The spelled pitch classes of a scale (what the spec calls the scale's
pitch classes: a note is scale-native when its pitch class is one of
them). -/
def degreeNames (sc : ScaleE) : List PitchName :=
  sc.degrees.map (fun d => d.1)

/-- Well-formedness of a scale, satisfied by every music21 scale the
repository builds: at least one degree, degree contributions strictly
ascending within a span of less than an octave, and contributions within
`[-12, 24)` (true for any tonic spelled as a letter with at most a few
accidentals). -/
def ScaleWF (sc : ScaleE) : Prop :=
  sc.degrees ≠ [] ∧
  List.Pairwise (· < ·) (contribs sc) ∧
  (∀ c ∈ contribs sc, -12 ≤ c ∧ c < 24) ∧
  (∀ c ∈ contribs sc, ∀ c' ∈ contribs sc, c' < c + 12)

instance (sc : ScaleE) : Decidable (ScaleWF sc) :=
  inferInstanceAs (Decidable (sc.degrees ≠ [] ∧
    List.Pairwise (· < ·) (contribs sc) ∧
    (∀ c ∈ contribs sc, -12 ≤ c ∧ c < 24) ∧
    (∀ c ∈ contribs sc, ∀ c' ∈ contribs sc, c' < c + 12)))

/-- The number of degrees of a scale, as an integer. -/
def nDeg (sc : ScaleE) : Int := (sc.degrees.length : Int)

/-- The contribution of the `j`-th degree (0 outside the degree list). -/
def cIdx (sc : ScaleE) (j : Nat) : Int :=
  degContribution (sc.degrees.getD j (⟨(0 : Fin 7), 0⟩, 0))

/-- A note is native to a scale when it is one of the scale's enumerated
pitches. -/
def Native (sc : ScaleE) (nn : NoteName) : Prop :=
  ∃ i : Int, scalePitchAt sc i = nn

/-! ## Helper lemmas: integer ranges -/

theorem length_intRange (a b : Int) : (intRange a b).length = (b + 1 - a).toNat := by
  simp [intRange]

theorem intRange_nil {a b : Int} (h : b < a) : intRange a b = [] := by
  unfold intRange
  have h0 : (b + 1 - a).toNat = 0 := by omega
  rw [h0]
  rfl

theorem intRange_cons {a b : Int} (h : a ≤ b) : intRange a b = a :: intRange (a + 1) b := by
  unfold intRange
  have h1 : (b + 1 - a).toNat = (b + 1 - (a + 1)).toNat + 1 := by omega
  rw [h1, List.range_succ_eq_map, List.map_cons, List.map_map]
  refine congrArg₂ _ (by simp) (List.map_congr_left ?_)
  intro i _
  simp [Function.comp]
  push_cast
  ring

theorem mem_intRange {a b k : Int} : k ∈ intRange a b ↔ a ≤ k ∧ k ≤ b := by
  unfold intRange
  simp only [List.mem_map, List.mem_range]
  constructor
  · rintro ⟨i, hi, rfl⟩
    omega
  · rintro ⟨h1, h2⟩
    exact ⟨(k - a).toNat, by omega, by omega⟩

theorem getElem_intRange {a b : Int} {j : Nat} (h : j < (intRange a b).length) :
    (intRange a b)[j] = a + j := by
  unfold intRange at h ⊢
  simp

theorem filter_ge_intRange_aux (c : Int) :
    ∀ (N : Nat) (a b : Int), (b + 1 - a).toNat = N →
      (intRange a b).filter (fun k => decide (c ≤ k)) = intRange (max a c) b := by
  intro N
  induction N with
  | zero =>
    intro a b hN
    rw [intRange_nil (by omega), intRange_nil (lt_of_lt_of_le (by omega) (le_max_left a c))]
    rfl
  | succ m IH =>
    intro a b hN
    have hab : a ≤ b := by omega
    rw [intRange_cons hab, List.filter_cons]
    by_cases hca : c ≤ a
    · rw [if_pos (by simpa using hca), IH (a + 1) b (by omega),
        max_eq_left (by omega), max_eq_left hca, intRange_cons hab]
    · rw [if_neg (by simpa using hca), IH (a + 1) b (by omega),
        max_eq_right (by omega), max_eq_right (by omega)]

theorem filter_ge_intRange (a b c : Int) :
    (intRange a b).filter (fun k => decide (c ≤ k)) = intRange (max a c) b :=
  filter_ge_intRange_aux c _ a b rfl

theorem filter_le_intRange_aux (d : Int) :
    ∀ (N : Nat) (a b : Int), (b + 1 - a).toNat = N →
      (intRange a b).filter (fun k => decide (k ≤ d)) = intRange a (min b d) := by
  intro N
  induction N with
  | zero =>
    intro a b hN
    rw [intRange_nil (by omega), intRange_nil (lt_of_le_of_lt (min_le_left b d) (by omega))]
    rfl
  | succ m IH =>
    intro a b hN
    have hab : a ≤ b := by omega
    rw [intRange_cons hab, List.filter_cons]
    by_cases had : a ≤ d
    · rw [if_pos (by simpa using had), IH (a + 1) b (by omega)]
      rw [intRange_cons (le_min hab had)]
    · rw [if_neg (by simpa using had), IH (a + 1) b (by omega),
        intRange_nil (by omega), intRange_nil (lt_of_le_of_lt (min_le_right b d) (by omega))]

theorem filter_le_intRange (a b d : Int) :
    (intRange a b).filter (fun k => decide (k ≤ d)) = intRange a (min b d) :=
  filter_le_intRange_aux d _ a b rfl

/-! ## Helper lemmas: the scale pitch enumeration -/

theorem scalePitchAt_decomp (sc : ScaleE) {k q r : Int}
    (hk : k = nDeg sc * q + r) (hr0 : 0 ≤ r) (hrN : r < nDeg sc) :
    scalePitchAt sc k =
      ⟨(sc.degrees.getD r.toNat (⟨(0 : Fin 7), 0⟩, 0)).1,
        q + (sc.degrees.getD r.toNat (⟨(0 : Fin 7), 0⟩, 0)).2⟩ := by
  have hN0 : nDeg sc ≠ 0 := by
    intro h0
    rw [h0] at hrN
    omega
  have h1 : k.emod ((sc.degrees.length : Int)) = r := by
    show k % nDeg sc = r
    rw [hk, show nDeg sc * q + r = r + nDeg sc * q from by ring,
      Int.add_mul_emod_self_left, Int.emod_eq_of_lt hr0 hrN]
  have h2 : k.ediv ((sc.degrees.length : Int)) = q := by
    show k / nDeg sc = q
    rw [hk, show nDeg sc * q + r = r + nDeg sc * q from by ring,
      Int.add_mul_ediv_left r q hN0, Int.ediv_eq_zero_of_lt hr0 hrN, zero_add]
  unfold scalePitchAt
  simp only [h1, h2]

theorem ps_decomp (sc : ScaleE) {k q r : Int}
    (hk : k = nDeg sc * q + r) (hr0 : 0 ≤ r) (hrN : r < nDeg sc) :
    (scalePitchAt sc k).ps = 12 * q + 12 + cIdx sc r.toNat := by
  rw [scalePitchAt_decomp sc hk hr0 hrN]
  unfold NoteName.ps cIdx degContribution
  ring

theorem exists_decomp (sc : ScaleE) (hne : sc.degrees ≠ []) (k : Int) :
    ∃ q r : Int, k = nDeg sc * q + r ∧ 0 ≤ r ∧ r < nDeg sc := by
  have hn : 0 < sc.degrees.length := List.length_pos.mpr hne
  have hN : (0 : Int) < nDeg sc := by
    unfold nDeg
    exact_mod_cast hn
  exact ⟨k.ediv (nDeg sc), k.emod (nDeg sc), (Int.ediv_add_emod k (nDeg sc)).symm,
    Int.emod_nonneg k (ne_of_gt hN), Int.emod_lt_of_pos k hN⟩

theorem cIdx_lt (sc : ScaleE) (hWF : ScaleWF sc) {j1 j2 : Nat} (h12 : j1 < j2)
    (h2 : j2 < sc.degrees.length) : cIdx sc j1 < cIdx sc j2 := by
  have h1 : j1 < sc.degrees.length := lt_trans h12 h2
  have hp : (contribs sc).Pairwise (· < ·) := hWF.2.1
  have hg := (List.pairwise_iff_get.mp hp)
    ⟨j1, by simpa [contribs] using h1⟩ ⟨j2, by simpa [contribs] using h2⟩ (by simpa using h12)
  unfold cIdx
  rw [List.getD_eq_getElem _ _ h1, List.getD_eq_getElem _ _ h2]
  simpa [contribs] using hg

theorem cIdx_mem (sc : ScaleE) {j : Nat} (h : j < sc.degrees.length) :
    cIdx sc j ∈ contribs sc := by
  unfold cIdx contribs
  rw [List.getD_eq_getElem _ _ h]
  exact List.mem_map_of_mem _ (sc.degrees.getElem_mem h)

theorem cIdx_bounds (sc : ScaleE) (hWF : ScaleWF sc) {j : Nat}
    (h : j < sc.degrees.length) : -12 ≤ cIdx sc j ∧ cIdx sc j < 24 :=
  hWF.2.2.1 _ (cIdx_mem sc h)

theorem cIdx_span (sc : ScaleE) (hWF : ScaleWF sc) {j1 j2 : Nat}
    (h1 : j1 < sc.degrees.length) (h2 : j2 < sc.degrees.length) :
    cIdx sc j1 < cIdx sc j2 + 12 :=
  hWF.2.2.2 _ (cIdx_mem sc h2) _ (cIdx_mem sc h1)

theorem psAt_strictMono (sc : ScaleE) (hWF : ScaleWF sc) {k1 k2 : Int} (h : k1 < k2) :
    (scalePitchAt sc k1).ps < (scalePitchAt sc k2).ps := by
  have hn : 0 < sc.degrees.length := List.length_pos.mpr hWF.1
  have hN : (0 : Int) < nDeg sc := by
    unfold nDeg
    exact_mod_cast hn
  obtain ⟨q1, r1, hk1, hr10, hr1N⟩ := exists_decomp sc hWF.1 k1
  obtain ⟨q2, r2, hk2, hr20, hr2N⟩ := exists_decomp sc hWF.1 k2
  rw [ps_decomp sc hk1 hr10 hr1N, ps_decomp sc hk2 hr20 hr2N]
  have hr1len : r1.toNat < sc.degrees.length := by
    unfold nDeg at hr1N
    omega
  have hr2len : r2.toNat < sc.degrees.length := by
    unfold nDeg at hr2N
    omega
  have hq : q1 ≤ q2 := by
    by_contra hq'
    push_neg at hq'
    have : nDeg sc * q2 ≤ nDeg sc * (q1 - 1) := by
      exact mul_le_mul_of_nonneg_left (by omega) (le_of_lt hN)
    have hexp : nDeg sc * (q1 - 1) = nDeg sc * q1 - nDeg sc := by ring
    omega
  rcases eq_or_lt_of_le hq with hq12 | hq12
  · subst hq12
    have hr12 : r1 < r2 := by omega
    have := cIdx_lt sc hWF (show r1.toNat < r2.toNat by omega) hr2len
    omega
  · have := cIdx_span sc hWF hr1len hr2len
    omega

theorem scalePitchAt_inj (sc : ScaleE) (hWF : ScaleWF sc) {k1 k2 : Int}
    (h : scalePitchAt sc k1 = scalePitchAt sc k2) : k1 = k2 := by
  by_contra hne
  rcases lt_or_gt_of_ne hne with h' | h'
  · have := psAt_strictMono sc hWF h'
    rw [h] at this
    exact lt_irrefl _ this
  · have := psAt_strictMono sc hWF h'
    rw [h] at this
    exact lt_irrefl _ this

theorem psAt_mono (sc : ScaleE) (hWF : ScaleWF sc) {k1 k2 : Int} (h : k1 ≤ k2) :
    (scalePitchAt sc k1).ps ≤ (scalePitchAt sc k2).ps := by
  rcases eq_or_lt_of_le h with rfl | h'
  · exact le_refl _
  · exact le_of_lt (psAt_strictMono sc hWF h')

theorem filter_interval_intRange {a b c d : Int} (hac : a ≤ c) (hdb : d ≤ b) :
    (intRange a b).filter (fun k => decide (c ≤ k) && decide (k ≤ d)) = intRange c d := by
  have h1 : (intRange a b).filter (fun k => decide (c ≤ k) && decide (k ≤ d))
      = ((intRange a b).filter (fun k => decide (k ≤ d))).filter (fun k => decide (c ≤ k)) :=
    (List.filter_filter _ _).symm
  rw [h1, filter_le_intRange, min_eq_right hdb, filter_ge_intRange, max_eq_right hac]

theorem get_scale_notes_native (sc : ScaleE) (hWF : ScaleWF sc) (i : Int) :
    get_scale_notes (scalePitchAt sc i) sc =
      (intRange (i - nDeg sc) (i + nDeg sc)).map (scalePitchAt sc) := by
  have hn : 0 < sc.degrees.length := List.length_pos.mpr hWF.1
  have hN : (0 : Int) < nDeg sc := by
    unfold nDeg
    exact_mod_cast hn
  obtain ⟨q, r, hk, hr0, hrN⟩ := exists_decomp sc hWF.1 i
  have hrlen : r.toNat < sc.degrees.length := by
    unfold nDeg at hrN
    omega
  have hps : (scalePitchAt sc i).ps = 12 * q + 12 + cIdx sc r.toNat := ps_decomp sc hk hr0 hrN
  have hcb := cIdx_bounds sc hWF hrlen
  have hlo : (scalePitchAt sc (i - nDeg sc)).ps = (scalePitchAt sc i).ps - 12 := by
    have hk' : i - nDeg sc = nDeg sc * (q - 1) + r := by
      rw [hk]; ring
    rw [ps_decomp sc hk' hr0 hrN, hps]
    ring
  have hhi : (scalePitchAt sc (i + nDeg sc)).ps = (scalePitchAt sc i).ps + 12 := by
    have hk' : i + nDeg sc = nDeg sc * (q + 1) + r := by
      rw [hk]; ring
    rw [ps_decomp sc hk' hr0 hrN, hps]
    ring
  have hpt : ∀ k : Int,
      (decide ((scalePitchAt sc i).ps - 12 ≤ (scalePitchAt sc k).ps) &&
        decide ((scalePitchAt sc k).ps ≤ (scalePitchAt sc i).ps + 12))
      = (decide (i - nDeg sc ≤ k) && decide (k ≤ i + nDeg sc)) := by
    intro k
    have iff1 : (scalePitchAt sc i).ps - 12 ≤ (scalePitchAt sc k).ps ↔ i - nDeg sc ≤ k := by
      constructor
      · intro h
        by_contra hlt
        push_neg at hlt
        have := psAt_strictMono sc hWF hlt
        omega
      · intro h
        have := psAt_mono sc hWF h
        omega
    have iff2 : (scalePitchAt sc k).ps ≤ (scalePitchAt sc i).ps + 12 ↔ k ≤ i + nDeg sc := by
      constructor
      · intro h
        by_contra hlt
        push_neg at hlt
        have := psAt_strictMono sc hWF hlt
        omega
      · intro h
        have := psAt_mono sc hWF h
        omega
    rw [decide_eq_decide.mpr iff1, decide_eq_decide.mpr iff2]
  have hkLow : nDeg sc * (((scalePitchAt sc i).ps - 12 - 36).ediv 12) ≤ i - nDeg sc := by
    show nDeg sc * (((scalePitchAt sc i).ps - 12 - 36) / 12) ≤ i - nDeg sc
    have harg : (scalePitchAt sc i).ps - 12 - 36 = (cIdx sc r.toNat - 36) + 12 * q := by
      rw [hps]; ring
    rw [harg, Int.add_mul_ediv_left _ q (by norm_num : (12 : Int) ≠ 0)]
    have hcd : (cIdx sc r.toNat - 36) / 12 ≤ -2 := by
      have h1 : cIdx sc r.toNat - 36 ≤ -13 := by omega
      calc (cIdx sc r.toNat - 36) / 12 ≤ (-13 : Int) / 12 := Int.ediv_le_ediv (by norm_num) h1
        _ = -2 := by decide
    have hmul : nDeg sc * ((cIdx sc r.toNat - 36) / 12 + q) ≤ nDeg sc * (-2 + q) :=
      mul_le_mul_of_nonneg_left (by omega) (le_of_lt hN)
    have hexp : nDeg sc * (-2 + q) = nDeg sc * q - 2 * nDeg sc := by ring
    omega
  have hkHigh : i + nDeg sc ≤ nDeg sc * (((scalePitchAt sc i).ps + 12).ediv 12) + nDeg sc := by
    show i + nDeg sc ≤ nDeg sc * (((scalePitchAt sc i).ps + 12) / 12) + nDeg sc
    have harg : (scalePitchAt sc i).ps + 12 = (cIdx sc r.toNat + 24) + 12 * q := by
      rw [hps]; ring
    rw [harg, Int.add_mul_ediv_left _ q (by norm_num : (12 : Int) ≠ 0)]
    have hcd : (1 : Int) ≤ (cIdx sc r.toNat + 24) / 12 := by
      have h1 : (12 : Int) ≤ cIdx sc r.toNat + 24 := by omega
      calc (1 : Int) = (12 : Int) / 12 := by decide
        _ ≤ (cIdx sc r.toNat + 24) / 12 := Int.ediv_le_ediv (by norm_num) h1
    have hmul : nDeg sc * (1 + q) ≤ nDeg sc * ((cIdx sc r.toNat + 24) / 12 + q) :=
      mul_le_mul_of_nonneg_left (by omega) (le_of_lt hN)
    have hexp : nDeg sc * (1 + q) = nDeg sc * q + nDeg sc := by ring
    omega
  simp only [get_scale_notes, getPitches]
  rw [show ((sc.degrees.length : Int)) = nDeg sc from rfl]
  rw [List.filter_congr (fun k _ => hpt k)]
  rw [filter_interval_intRange hkLow hkHigh]

theorem indexOf_map_intRange {β : Type} [DecidableEq β] (g : Int → β)
    (hg : ∀ x y : Int, g x = g y → x = y) :
    ∀ (M : Nat) (a b x : Int), (b + 1 - a).toNat = M → a ≤ x → x ≤ b →
      ((intRange a b).map g).indexOf (g x) = (x - a).toNat := by
  intro M
  induction M with
  | zero =>
    intro a b x hM hax hxb
    omega
  | succ m IH =>
    intro a b x hM hax hxb
    rw [intRange_cons (by omega), List.map_cons]
    by_cases hx : a = x
    · subst hx
      rw [List.indexOf_cons_self]
      omega
    · have hne : g a ≠ g x := fun h => hx (hg a x h)
      rw [List.indexOf_cons_ne _ hne, IH (a + 1) b x (by omega) (by omega) hxb]
      omega

theorem getD_map_intRange {β : Type} (g : Int → β) (a b : Int) (j : Nat) (dv : β)
    (hj : j < (b + 1 - a).toNat) :
    ((intRange a b).map g).getD j dv = g (a + j) := by
  have hl : j < ((intRange a b).map g).length := by
    rw [List.length_map, length_intRange]
    exact hj
  rw [List.getD_eq_getElem _ _ hl, List.getElem_map, getElem_intRange]

theorem emod_add_emod_neg {N t : Int} (hN : 0 < N) :
    (N + t).emod (2 * N + 1) + (N + -t).emod (2 * N + 1) = 2 * N := by
  show (N + t) % (2 * N + 1) + (N + -t) % (2 * N + 1) = 2 * N
  have hM : (0 : Int) < 2 * N + 1 := by omega
  have h1 : (2 * N + 1) ∣ (N + t) - (N + t) % (2 * N + 1) :=
    ⟨(N + t) / (2 * N + 1), by rw [Int.emod_def]; ring⟩
  have h2 : (2 * N + 1) ∣ (N + -t) - (N + -t) % (2 * N + 1) :=
    ⟨(N + -t) / (2 * N + 1), by rw [Int.emod_def]; ring⟩
  have heq : ((N + t) - (N + t) % (2 * N + 1)) + ((N + -t) - (N + -t) % (2 * N + 1))
      = 2 * N - ((N + t) % (2 * N + 1) + (N + -t) % (2 * N + 1)) := by
    ring
  have hd : (2 * N + 1) ∣ 2 * N - ((N + t) % (2 * N + 1) + (N + -t) % (2 * N + 1)) := by
    rw [← heq]
    exact dvd_add h1 h2
  have hb1 : 0 ≤ (N + t) % (2 * N + 1) := Int.emod_nonneg _ (by omega)
  have hb1' : (N + t) % (2 * N + 1) < 2 * N + 1 := Int.emod_lt_of_pos _ hM
  have hb2 : 0 ≤ (N + -t) % (2 * N + 1) := Int.emod_nonneg _ (by omega)
  have hb2' : (N + -t) % (2 * N + 1) < 2 * N + 1 := Int.emod_lt_of_pos _ hM
  have hz := Int.eq_zero_of_abs_lt_dvd hd (by rw [abs_lt]; constructor <;> omega)
  omega

theorem translate_native (sc : ScaleE) (hWF : ScaleWF sc) (i t : Int) :
    _translate_note_in_scale (scalePitchAt sc i) t sc =
      .ok (scalePitchAt sc (i - nDeg sc + (nDeg sc + t).emod (2 * nDeg sc + 1))) := by
  have hn : 0 < sc.degrees.length := List.length_pos.mpr hWF.1
  have hN : (0 : Int) < nDeg sc := by
    unfold nDeg
    exact_mod_cast hn
  have hw := get_scale_notes_native sc hWF i
  have hlen : (get_scale_notes (scalePitchAt sc i) sc).length = (2 * nDeg sc + 1).toNat := by
    rw [hw, List.length_map, length_intRange]
    congr 1
    ring
  have hidx : (get_scale_notes (scalePitchAt sc i) sc).indexOf (scalePitchAt sc i)
      = (nDeg sc).toNat := by
    rw [hw, indexOf_map_intRange (scalePitchAt sc) (fun x y h => scalePitchAt_inj sc hWF h)
      _ (i - nDeg sc) (i + nDeg sc) i rfl (by omega) (by omega)]
    congr 1
    omega
  simp only [_translate_note_in_scale]
  rw [hidx, hlen, if_pos (by omega)]
  have hc1 : (((nDeg sc).toNat : Int)) = nDeg sc := Int.toNat_of_nonneg (le_of_lt hN)
  have hc2 : ((((2 * nDeg sc + 1).toNat : Nat) : Int)) = 2 * nDeg sc + 1 :=
    Int.toNat_of_nonneg (by omega)
  rw [hc1, hc2]
  have hm0 : 0 ≤ (nDeg sc + t).emod (2 * nDeg sc + 1) := Int.emod_nonneg _ (by omega)
  have hm1 : (nDeg sc + t).emod (2 * nDeg sc + 1) < 2 * nDeg sc + 1 :=
    Int.emod_lt_of_pos _ (by omega)
  rw [hw, getD_map_intRange _ _ _ _ _ (by omega)]
  rw [Int.toNat_of_nonneg hm0]

theorem name_scalePitchAt (sc : ScaleE) (hne : sc.degrees ≠ []) (k : Int) :
    (scalePitchAt sc k).name ∈ degreeNames sc := by
  have hn : 0 < sc.degrees.length := List.length_pos.mpr hne
  have hN : (0 : Int) < (sc.degrees.length : Int) := by exact_mod_cast hn
  have hm0 : 0 ≤ k.emod ((sc.degrees.length : Int)) := Int.emod_nonneg _ (by omega)
  have hm1 : k.emod ((sc.degrees.length : Int)) < (sc.degrees.length : Int) :=
    Int.emod_lt_of_pos _ hN
  unfold scalePitchAt degreeNames
  simp only
  rw [List.getD_eq_getElem _ _ (by omega)]
  exact List.mem_map_of_mem _ (List.getElem_mem _)

theorem native_of_name_mem (sc : ScaleE) (hne : sc.degrees ≠ []) (nn : NoteName)
    (h : nn.name ∈ degreeNames sc) : Native sc nn := by
  unfold degreeNames at h
  obtain ⟨x, hx, hxeq⟩ := List.mem_map.mp h
  obtain ⟨j, hj, hjx⟩ := List.mem_iff_getElem.mp hx
  have hN : (0 : Int) < nDeg sc := by
    unfold nDeg
    have : 0 < sc.degrees.length := List.length_pos.mpr hne
    exact_mod_cast this
  refine ⟨nDeg sc * (nn.octave - x.2) + (j : Int), ?_⟩
  have hd := scalePitchAt_decomp sc (k := nDeg sc * (nn.octave - x.2) + (j : Int))
    (q := nn.octave - x.2) (r := (j : Int)) rfl (by omega)
    (by unfold nDeg; exact_mod_cast hj)
  rw [hd]
  have hget : sc.degrees.getD ((j : Int)).toNat (⟨(0 : Fin 7), 0⟩, 0) = x := by
    rw [Int.toNat_natCast, List.getD_eq_getElem _ _ hj, hjx]
  rw [hget, hxeq]
  have : nn.octave - x.2 + x.2 = nn.octave := by omega
  rw [this]

theorem mem_getPitches {sc : ScaleE} {lo hi : Int} {x : NoteName}
    (hx : x ∈ getPitches sc lo hi) : ∃ k, scalePitchAt sc k = x := by
  unfold getPitches at hx
  simp only [List.mem_map, List.mem_filter] at hx
  obtain ⟨k, _, hk⟩ := hx
  exact ⟨k, hk⟩

/-! ## Helper lemmas: Except and mapM -/

theorem except_bind_ok {ε α β : Type} (x : Except ε α) (f : α → Except ε β) (b : β) :
    (x >>= f) = .ok b ↔ ∃ a, x = .ok a ∧ f a = .ok b := by
  cases x with
  | error e => simp [Bind.bind, Except.bind]
  | ok a => simp [Bind.bind, Except.bind]

theorem mapM_ok_of_forall {α β : Type} {g : α → Except Str β} {h : α → β} :
    ∀ l : List α, (∀ s ∈ l, g s = .ok (h s)) → l.mapM g = .ok (l.map h) := by
  intro l
  induction l with
  | nil => intro _; rfl
  | cons a l IH =>
    intro hf
    rw [List.mapM_cons, hf a (by simp), IH (fun s hs => hf s (by simp [hs]))]
    rfl

theorem mapM_ok_length {α β : Type} {g : α → Except Str β} :
    ∀ {l : List α} {l' : List β}, l.mapM g = .ok l' → l'.length = l.length := by
  intro l
  induction l with
  | nil =>
    intro l' h
    rw [List.mapM_nil] at h
    cases h
    rfl
  | cons a l IH =>
    intro l' h
    rw [List.mapM_cons] at h
    obtain ⟨x, hx, h2⟩ := (except_bind_ok _ _ _).mp h
    obtain ⟨xs, hxs, h3⟩ := (except_bind_ok _ _ _).mp h2
    cases h3
    simp [IH hxs]

/-! ## Helper lemmas: pyZip and concatenate_streams -/

theorem foldl_min_len {α : Type} (m : Nat) :
    ∀ (rest : List (List α)) (init : Nat), (∀ r ∈ rest, r.length = m) →
      rest.foldl (fun a t => min a t.length) init
        = if rest.isEmpty then init else min init m := by
  intro rest
  induction rest with
  | nil => intro init _; rfl
  | cons r rest IH =>
    intro init hr
    simp only [List.foldl_cons]
    rw [hr r (by simp), IH (min init m) (fun x hx => hr x (by simp [hx]))]
    by_cases h : rest.isEmpty <;> simp [h, min_assoc]

theorem minLen_eq {α : Type} (m : Nat) (rs : List (List α)) (hne : rs ≠ [])
    (hlen : ∀ r ∈ rs, r.length = m) : minLen rs = m := by
  obtain ⟨r0, rest, rfl⟩ : ∃ r0 rest, rs = r0 :: rest := by
    cases rs with
    | nil => exact absurd rfl hne
    | cons r0 rest => exact ⟨r0, rest, rfl⟩
  simp only [minLen]
  rw [foldl_min_len m rest r0.length (fun x hx => hlen x (by simp [hx]))]
  have h0 : r0.length = m := hlen r0 (by simp)
  by_cases h : rest.isEmpty <;> simp [h, h0]

theorem concatenate_streams_spec {α : Type} (rs : List (List (List α))) (m : Nat)
    (hne : rs ≠ []) (hlen : ∀ r ∈ rs, r.length = m) :
    (concatenate_streams rs).length = m ∧
    ∀ i, i < m →
      (concatenate_streams rs).getD i [] = (rs.map (fun r => r.getD i [])).flatten := by
  obtain ⟨r0, rest, rfl⟩ : ∃ r0 rest, rs = r0 :: rest := by
    cases rs with
    | nil => exact absurd rfl hne
    | cons r0 rest => exact ⟨r0, rest, rfl⟩
  have hmin : minLen (r0 :: rest) = m := minLen_eq m _ hne hlen
  have hz : pyZip (r0 :: rest)
      = (List.range m).map (fun i => (r0 :: rest).map (fun t => t.getD i default)) := by
    simp only [pyZip]
    rw [hmin]
  constructor
  · simp [concatenate_streams, hz]
  · intro i hi
    simp only [concatenate_streams, hz, List.map_map]
    rw [List.getD_eq_getElem _ _ (by simpa using hi), List.getElem_map, List.getElem_range]
    rfl

/-! ## Claim theorems: scale translation -/

/-- Claim C3: for every note native to the given scale and every integer
`steps`, translating the note by `steps` and then translating the result by
`-steps` (each translation anchoring a fresh scale window at its own input
note) returns the original note:
`translate(translate(note, steps, scale), -steps, scale) == note`. -/
theorem translate_round_trip (sc : ScaleE) (hWF : ScaleWF sc) (nn : NoteName)
    (steps : Int) (hnat : Native sc nn) :
    ∃ mid : NoteName, _translate_note_in_scale nn steps sc = .ok mid ∧
      _translate_note_in_scale mid (-steps) sc = .ok nn := by
  obtain ⟨i, rfl⟩ := hnat
  have hn : 0 < sc.degrees.length := List.length_pos.mpr hWF.1
  have hN : (0 : Int) < nDeg sc := by
    unfold nDeg
    exact_mod_cast hn
  refine ⟨_, translate_native sc hWF i steps, ?_⟩
  rw [translate_native sc hWF _ (-steps)]
  have hsum := emod_add_emod_neg (t := steps) hN
  have harg : i - nDeg sc + (nDeg sc + steps).emod (2 * nDeg sc + 1) - nDeg sc
      + (nDeg sc + -steps).emod (2 * nDeg sc + 1) = i := by
    omega
  rw [harg]

/-- Witness for C3: in the C major scale, translating C4 up 2 scale steps
and then down 2 returns C4. -/
theorem translate_round_trip_witness :
    ∃ mid : NoteName,
      _translate_note_in_scale ⟨⟨(0 : Fin 7), 0⟩, 4⟩ 2 (MajorScale ⟨(0 : Fin 7), 0⟩)
        = .ok mid ∧
      _translate_note_in_scale mid (-2) (MajorScale ⟨(0 : Fin 7), 0⟩)
        = .ok ⟨⟨(0 : Fin 7), 0⟩, 4⟩ :=
  translate_round_trip (MajorScale ⟨(0 : Fin 7), 0⟩) (by decide)
    ⟨⟨(0 : Fin 7), 0⟩, 4⟩ 2 ⟨28, by decide⟩

/-- Claim C4: single-note translation fails with the note-not-in-scale error
if and only if the input note's pitch class (spelled name) is foreign to the
scale; for every note whose pitch class belongs to the scale, translation
succeeds. -/
theorem translate_error_iff (sc : ScaleE) (hWF : ScaleWF sc) (nn : NoteName)
    (steps : Int) :
    (_translate_note_in_scale nn steps sc
        = .error "The input note is not in the specified scale.".data
      ↔ nn.name ∉ degreeNames sc) ∧
    (nn.name ∈ degreeNames sc →
      ∃ out, _translate_note_in_scale nn steps sc = .ok out) := by
  by_cases hmem : nn.name ∈ degreeNames sc
  · have hnat := native_of_name_mem sc hWF.1 nn hmem
    obtain ⟨i, rfl⟩ := hnat
    rw [translate_native sc hWF i steps]
    constructor
    · simp [hmem]
    · intro _
      exact ⟨_, rfl⟩
  · have hnin : nn ∉ get_scale_notes nn sc := by
      intro hin
      have hin' : nn ∈ getPitches sc (nn.ps - 12) (nn.ps + 12) := hin
      obtain ⟨k, hk⟩ := mem_getPitches hin'
      exact hmem (hk ▸ name_scalePitchAt sc hWF.1 k)
    have hcond : ¬ ((get_scale_notes nn sc).indexOf nn < (get_scale_notes nn sc).length) := by
      rw [List.indexOf_eq_length.mpr hnin]
      omega
    simp only [_translate_note_in_scale]
    rw [if_neg hcond]
    constructor
    · simp [hmem]
    · intro h
      exact absurd h hmem

/-- Witness for C4: in the C major scale, translating the chromatic note C#4
fails with the note-not-in-scale error, and the pitch class C belongs to the
scale so C4 translates successfully. -/
theorem translate_error_iff_witness :
    ((_translate_note_in_scale ⟨⟨(0 : Fin 7), 1⟩, 4⟩ 3 (MajorScale ⟨(0 : Fin 7), 0⟩)
        = .error "The input note is not in the specified scale.".data
      ↔ (⟨⟨(0 : Fin 7), 1⟩, 4⟩ : NoteName).name ∉ degreeNames (MajorScale ⟨(0 : Fin 7), 0⟩)) ∧
    ((⟨⟨(0 : Fin 7), 1⟩, 4⟩ : NoteName).name ∈ degreeNames (MajorScale ⟨(0 : Fin 7), 0⟩) →
      ∃ out, _translate_note_in_scale ⟨⟨(0 : Fin 7), 1⟩, 4⟩ 3 (MajorScale ⟨(0 : Fin 7), 0⟩)
        = .ok out)) ∧
    ((_translate_note_in_scale ⟨⟨(0 : Fin 7), 0⟩, 4⟩ 3 (MajorScale ⟨(0 : Fin 7), 0⟩)
        = .error "The input note is not in the specified scale.".data
      ↔ (⟨⟨(0 : Fin 7), 0⟩, 4⟩ : NoteName).name ∉ degreeNames (MajorScale ⟨(0 : Fin 7), 0⟩)) ∧
    ((⟨⟨(0 : Fin 7), 0⟩, 4⟩ : NoteName).name ∈ degreeNames (MajorScale ⟨(0 : Fin 7), 0⟩) →
      ∃ out, _translate_note_in_scale ⟨⟨(0 : Fin 7), 0⟩, 4⟩ 3 (MajorScale ⟨(0 : Fin 7), 0⟩)
        = .ok out)) :=
  ⟨translate_error_iff (MajorScale ⟨(0 : Fin 7), 0⟩) (by decide) ⟨⟨(0 : Fin 7), 1⟩, 4⟩ 3,
   translate_error_iff (MajorScale ⟨(0 : Fin 7), 0⟩) (by decide) ⟨⟨(0 : Fin 7), 0⟩, 4⟩ 3⟩

/-- Claim C2: translating with an ordered sequence of steps produces one
result per step, concatenated track-wise: for multi-track input the `i`-th
output track is the ordered concatenation of the `i`-th tracks of the
per-step results, in step order; in particular, for a single track,
`translate(track, [a, b], scale)` equals `translate(track, a, scale)`
followed by `translate(track, b, scale)`. -/
theorem translate_seq_spec (sc : ScaleE) :
    (∀ (ts : List (List NoteName)) (steps : List Int)
        (R : Int → List (List NoteName)),
      steps ≠ [] →
      (∀ s ∈ steps, translate_in_scale (.multi ts) s sc = .ok (.multi (R s))) →
      ∃ out, translate_seq_in_scale (.multi ts) steps sc = .ok (.multi out) ∧
        out.length = ts.length ∧
        ∀ i, i < ts.length →
          out.getD i [] = ((steps.map R).map (fun r => r.getD i [])).flatten) ∧
    (∀ (t : List NoteName) (a b : Int) (ra rb : List NoteName),
      translate_in_scale (.single t) a sc = .ok (.single ra) →
      translate_in_scale (.single t) b sc = .ok (.single rb) →
      translate_seq_in_scale (.single t) [a, b] sc = .ok (.single (ra ++ rb))) := by
  constructor
  · intro ts steps R hne hR
    have hR' : ∀ s ∈ steps,
        ts.mapM (fun track => translate_notes_in_scale track s sc) = .ok (R s) := by
      intro s hs
      have h := hR s hs
      simp only [translate_in_scale] at h
      obtain ⟨tt, htt, hpure⟩ := (except_bind_ok _ _ _).mp h
      cases hpure
      exact htt
    have hlenR : ∀ s ∈ steps, (R s).length = ts.length := fun s hs =>
      mapM_ok_length (hR' s hs)
    have hmapM : steps.mapM (fun s =>
        ts.mapM (fun track => translate_notes_in_scale track s sc))
        = .ok (steps.map R) :=
      mapM_ok_of_forall steps hR'
    have hlens : ∀ r ∈ steps.map R, r.length = ts.length := by
      intro r hr
      obtain ⟨s, hs, rfl⟩ := List.mem_map.mp hr
      exact hlenR s hs
    have hnemap : steps.map R ≠ [] := by
      intro h
      exact hne (List.map_eq_nil_iff.mp h)
    obtain ⟨hlen, hget⟩ := concatenate_streams_spec (steps.map R) ts.length hnemap hlens
    refine ⟨concatenate_streams (steps.map R), ?_, hlen, hget⟩
    simp only [translate_seq_in_scale]
    rw [hmapM]
    rfl
  · intro t a b ra rb ha hb
    have ha' : translate_notes_in_scale t a sc = .ok ra := by
      simp only [translate_in_scale] at ha
      obtain ⟨r, hr, hpure⟩ := (except_bind_ok _ _ _).mp ha
      cases hpure
      exact hr
    have hb' : translate_notes_in_scale t b sc = .ok rb := by
      simp only [translate_in_scale] at hb
      obtain ⟨r, hr, hpure⟩ := (except_bind_ok _ _ _).mp hb
      cases hpure
      exact hr
    simp only [translate_seq_in_scale]
    have hmapM : [a, b].mapM (fun s => translate_notes_in_scale t s sc) = .ok [ra, rb] := by
      rw [List.mapM_cons, ha', List.mapM_cons, hb', List.mapM_nil]
      rfl
    rw [hmapM]
    simp [add_streams]

/-- Witness for C2: in the C major scale, translating the one-track input
`[[C4, E4]]` with the step sequence `[0]` and the single track `[C4]` with
the step sequence `[0, 1]`. -/
theorem translate_seq_spec_witness :
    (∃ out, translate_seq_in_scale
        (.multi [[⟨⟨(0 : Fin 7), 0⟩, 4⟩, ⟨⟨(2 : Fin 7), 0⟩, 4⟩]]) [0]
        (MajorScale ⟨(0 : Fin 7), 0⟩) = .ok (.multi out) ∧
      out.length = 1 ∧
      ∀ i, i < 1 →
        out.getD i []
          = ((([0] : List Int).map
              (fun _ => [[⟨⟨(0 : Fin 7), 0⟩, 4⟩, ⟨⟨(2 : Fin 7), 0⟩, 4⟩]])).map
                (fun r => r.getD i [])).flatten) ∧
    translate_seq_in_scale (.single [⟨⟨(0 : Fin 7), 0⟩, 4⟩]) [0, 1]
        (MajorScale ⟨(0 : Fin 7), 0⟩)
      = .ok (.single ([⟨⟨(0 : Fin 7), 0⟩, 4⟩] ++ [⟨⟨(1 : Fin 7), 0⟩, 4⟩])) :=
  ⟨(translate_seq_spec (MajorScale ⟨(0 : Fin 7), 0⟩)).1
      [[⟨⟨(0 : Fin 7), 0⟩, 4⟩, ⟨⟨(2 : Fin 7), 0⟩, 4⟩]] [0]
      (fun _ => [[⟨⟨(0 : Fin 7), 0⟩, 4⟩, ⟨⟨(2 : Fin 7), 0⟩, 4⟩]])
      (by decide) (by decide),
   (translate_seq_spec (MajorScale ⟨(0 : Fin 7), 0⟩)).2
      [⟨⟨(0 : Fin 7), 0⟩, 4⟩] 0 1 [⟨⟨(0 : Fin 7), 0⟩, 4⟩] [⟨⟨(1 : Fin 7), 0⟩, 4⟩]
      (by decide) (by decide)⟩

/-! ## Claim theorems: chord renderers -/

theorem map_attr_replicate {β : Type} (g : Msg → β) (b : β) (f : Nat → Msg)
    (hf : ∀ n, g (f n) = b) :
    ∀ l : List Nat, (l.map f).map g = List.replicate l.length b := by
  intro l
  induction l with
  | nil => rfl
  | cons a l IH =>
    simp only [List.map_cons, List.length_cons, List.replicate_succ, hf, IH]

/-- Claim C5: for every non-empty pitch list and every duration, the
simultaneous renderer appends exactly N `note_on` messages, each with
time-delta 0, followed by exactly N `note_off` messages of which the first
carries time-delta `duration` and the rest 0, so the total elapsed time is
exactly `duration`. -/
theorem play_simultaneously_spec (notes : List Nat) (duration : Int)
    (velocity : Nat) (h : notes ≠ []) :
    ∃ msgs, play_simultaneously notes duration velocity = some msgs ∧
      msgs.length = 2 * notes.length ∧
      (msgs.take notes.length).map Msg.kind
        = List.replicate notes.length MKind.note_on ∧
      (∀ m ∈ msgs.take notes.length, m.time = 0) ∧
      (msgs.drop notes.length).map Msg.kind
        = List.replicate notes.length MKind.note_off ∧
      (msgs.drop notes.length).map Msg.time
        = duration :: List.replicate (notes.length - 1) 0 ∧
      totalTicks msgs = duration := by
  obtain ⟨n0, rest, rfl⟩ : ∃ n0 rest, notes = n0 :: rest := by
    cases notes with
    | nil => exact absurd rfl h
    | cons n0 rest => exact ⟨n0, rest, rfl⟩
  have htake : (((n0 :: rest).map (fun n => (⟨.note_on, n, velocity, 0⟩ : Msg)))
      ++ (⟨.note_off, n0, velocity, duration⟩ ::
          rest.map (fun n => (⟨.note_off, n, velocity, 0⟩ : Msg)))).take (n0 :: rest).length
      = (n0 :: rest).map (fun n => (⟨.note_on, n, velocity, 0⟩ : Msg)) :=
    List.take_left' (by simp)
  have hdrop : (((n0 :: rest).map (fun n => (⟨.note_on, n, velocity, 0⟩ : Msg)))
      ++ (⟨.note_off, n0, velocity, duration⟩ ::
          rest.map (fun n => (⟨.note_off, n, velocity, 0⟩ : Msg)))).drop (n0 :: rest).length
      = ⟨.note_off, n0, velocity, duration⟩ ::
          rest.map (fun n => (⟨.note_off, n, velocity, 0⟩ : Msg)) :=
    List.drop_left' (by simp)
  refine ⟨_, rfl, ?_, ?_, ?_, ?_, ?_, ?_⟩
  · simp only [List.length_append, List.length_map, List.length_cons]
    omega
  · rw [htake, map_attr_replicate Msg.kind MKind.note_on
      (fun n => (⟨.note_on, n, velocity, 0⟩ : Msg)) (fun n => rfl) (n0 :: rest)]
  · intro m hm
    rw [htake] at hm
    obtain ⟨n, _, rfl⟩ := List.mem_map.mp hm
    rfl
  · rw [hdrop]
    simp only [List.map_cons]
    rw [map_attr_replicate Msg.kind MKind.note_off
      (fun n => (⟨.note_off, n, velocity, 0⟩ : Msg)) (fun n => rfl) rest]
    rw [show (n0 :: rest).length = rest.length + 1 from rfl, List.replicate_succ]
  · rw [hdrop]
    simp only [List.map_cons]
    rw [map_attr_replicate Msg.time 0
      (fun n => (⟨.note_off, n, velocity, 0⟩ : Msg)) (fun n => rfl) rest]
    rfl
  · simp only [totalTicks, List.map_append, List.sum_append, List.map_cons, List.sum_cons,
      List.map_map]
    have h1 : ((rest.map (Msg.time ∘ fun n => (⟨.note_on, n, velocity, 0⟩ : Msg)))).sum = 0 := by
      rw [show (Msg.time ∘ fun n => (⟨.note_on, n, velocity, 0⟩ : Msg))
        = fun _ => (0 : Int) from rfl]
      simp
    have h2 : ((rest.map (Msg.time ∘ fun n => (⟨.note_off, n, velocity, 0⟩ : Msg)))).sum = 0 := by
      rw [show (Msg.time ∘ fun n => (⟨.note_off, n, velocity, 0⟩ : Msg))
        = fun _ => (0 : Int) from rfl]
      simp
    rw [h1, h2]
    ring

/-- Witness for C5: three pitches at duration 480. -/
theorem play_simultaneously_spec_witness :
    ∃ msgs, play_simultaneously [60, 64, 67] 480 64 = some msgs ∧
      msgs.length = 2 * [60, 64, 67].length ∧
      (msgs.take [60, 64, 67].length).map Msg.kind
        = List.replicate [60, 64, 67].length MKind.note_on ∧
      (∀ m ∈ msgs.take [60, 64, 67].length, m.time = 0) ∧
      (msgs.drop [60, 64, 67].length).map Msg.kind
        = List.replicate [60, 64, 67].length MKind.note_off ∧
      (msgs.drop [60, 64, 67].length).map Msg.time
        = 480 :: List.replicate ([60, 64, 67].length - 1) 0 ∧
      totalTicks msgs = 480 :=
  play_simultaneously_spec [60, 64, 67] 480 64 (by decide)

/-- Claim C1 (code-bug evidence): the arpeggio renderer writes cumulative
offsets into mido's delta-time field, so under delta semantics the rendering
of 2 pitches over 480 ticks spans 960 ticks (the absolute event times are
`[0, 240, 480, 960]`), not the `2 * (480 // 2) = 480` ticks the spec
describes (which would be absolute times `[0, 240, 240, 480]`). -/
theorem play_arpeggio_delta_times :
    (play_arpeggio [60, 64] 480 64).map absTimes = some [0, 240, 480, 960] ∧
    (play_arpeggio [60, 64] 480 64).map totalTicks = some 960 ∧
    (2 : Int) * ((480 : Int).ediv 2) = 480 ∧
    ([0, 240, 480, 960] : List Int) ≠ [0, 240, 240, 480] := by
  refine ⟨by decide, by decide, by decide, by decide⟩

/-! ## Claim theorems: chord tables and parsing -/

/-- Claim C6: for every root name in the root table and every canonical
quality key of the interval table, `chord_to_notes(root ++ quality)` returns
a non-empty strictly ascending pitch sequence whose first element is the
root's table pitch. -/
theorem chord_to_notes_table_spec (r : Str) (p : Nat) (q : Str) (iv : List Nat)
    (hr : (r, p) ∈ root_notes) (hq : (q, iv) ∈ qualityExtensionsBase) :
    ∃ out, chord_to_notes (r ++ q) = .ok out ∧ out ≠ [] ∧
      List.Pairwise (· < ·) out ∧ out.head? = some p := by
  have key : root_notes.all
      (fun rp => qualityExtensionsBase.all (fun qv => chordCheck rp qv)) = true := by
    decide
  rw [List.all_eq_true] at key
  have k1 := key (r, p) hr
  rw [List.all_eq_true] at k1
  have k2 := k1 (q, iv) hq
  unfold chordCheck at k2
  revert k2
  cases hcn : chord_to_notes (r ++ q) with
  | error e =>
    intro k2
    cases k2
  | ok out =>
    intro k2
    simp only [Bool.and_eq_true, Bool.not_eq_true', decide_eq_true_eq] at k2
    refine ⟨out, rfl, ?_, k2.1.2, k2.2⟩
    intro hnil
    subst hnil
    cases k2.1.1

/-- Witness for C6: the root C with the canonical quality `maj7`. -/
theorem chord_to_notes_table_spec_witness :
    ∃ out, chord_to_notes ("C".data ++ "maj7".data) = .ok out ∧ out ≠ [] ∧
      List.Pairwise (· < ·) out ∧ out.head? = some 60 :=
  chord_to_notes_table_spec "C".data 60 "maj7".data [0, 4, 7, 11]
    (by decide) (by decide)

/-- Claim C7 counterexample: `Cb` is one of the 21 letter-plus-optional-
accidental spellings and `maj` is a known quality, yet `chord_to_notes`
rejects `Cbmaj` with an unknown-root error: the root table has no `Cb`
entry (nor `Fb`, `E#`, `B#`). -/
theorem chord_to_notes_Cb_rejected :
    chord_to_notes ("Cb".data ++ "maj".data) = .error ("Unknown root note: Cb".data) ∧
    parse_root ("Cb".data ++ "maj".data) = some "Cb".data ∧
    resolve_intervals "maj".data = some [0, 4, 7] := by
  refine ⟨by decide, by decide, by decide⟩

/-- Claim C7 (amended): for every root name present in the root table (17 of
the 21 letter-plus-optional-accidental spellings; `Cb`, `Fb`, `E#`, `B#` are
absent) combined with any known quality key (canonical or alias), the chord
symbol is accepted and decomposes uniquely into that root (the parser
returns exactly it) and that quality (the remainder after stripping the
root). -/
theorem chord_to_notes_decomposition (r : Str) (p : Nat) (q : Str) (iv : List Nat)
    (hr : (r, p) ∈ root_notes)
    (hq : (q, iv) ∈ qualityExtensionsBase ∨ (q, iv) ∈ aliasEntries) :
    parse_root (r ++ q) = some r ∧ (r ++ q).drop r.length = q ∧
    ∃ out, chord_to_notes (r ++ q) = .ok out := by
  have hdrop : (r ++ q).drop r.length = q := List.drop_left r q
  have key : root_notes.all
      (fun rp => (qualityExtensionsBase ++ aliasEntries).all
        (fun qv => decompCheck rp qv)) = true := by
    decide
  rw [List.all_eq_true] at key
  have k1 := key (r, p) hr
  rw [List.all_eq_true] at k1
  have hq' : (q, iv) ∈ qualityExtensionsBase ++ aliasEntries := by
    rcases hq with h | h
    · exact List.mem_append_left _ h
    · exact List.mem_append_right _ h
  have k2 := k1 (q, iv) hq'
  unfold decompCheck at k2
  simp only [Bool.and_eq_true, decide_eq_true_eq] at k2
  obtain ⟨hparse, hok⟩ := k2
  cases hcn : chord_to_notes (r ++ q) with
  | error e =>
    rw [hcn] at hok
    cases hok
  | ok out => exact ⟨hparse, hdrop, out, rfl⟩

/-- Witness for C7 (amended): the root C# with the alias quality `m7`. -/
theorem chord_to_notes_decomposition_witness :
    parse_root ("C#".data ++ "m7".data) = some "C#".data ∧
    ("C#".data ++ "m7".data).drop "C#".data.length = "m7".data ∧
    ∃ out, chord_to_notes ("C#".data ++ "m7".data) = .ok out :=
  chord_to_notes_decomposition "C#".data 61 "m7".data [0, 3, 7, 10]
    (by decide) (.inr (by decide))

/-- Claim C9: every canonical quality key starting with `maj`, `min` or
`dim` registers an alias obtained by the substring substitution `maj`→`M`,
`min`→`m`, `dim`→`°`, and resolving intervals for the canonical key and for
its alias yields the same interval set. -/
theorem alias_consistency (q : Str) (iv : List Nat)
    (hq : (q, iv) ∈ qualityExtensionsBase)
    (hpre : ("maj".data.isPrefixOf q || "min".data.isPrefixOf q
      || "dim".data.isPrefixOf q) = true) :
    (aliasKey q, iv) ∈ aliasEntries ∧
    resolve_intervals (aliasKey q) = resolve_intervals q ∧
    resolve_intervals q = some iv := by
  have key : qualityExtensionsBase.all aliasCheck = true := by decide
  rw [List.all_eq_true] at key
  have k := key (q, iv) hq
  unfold aliasCheck at k
  rw [hpre] at k
  simp only [Bool.not_true, Bool.false_or, Bool.and_eq_true, decide_eq_true_eq] at k
  exact ⟨k.1.1, k.1.2, k.2⟩

/-- Witness for C9: the canonical key `maj7` and its alias `M7`. -/
theorem alias_consistency_witness :
    (aliasKey "maj7".data, ([0, 4, 7, 11] : List Nat)) ∈ aliasEntries ∧
    resolve_intervals (aliasKey "maj7".data) = resolve_intervals "maj7".data ∧
    resolve_intervals "maj7".data = some [0, 4, 7, 11] :=
  alias_consistency "maj7".data [0, 4, 7, 11] (by decide) (by decide)

/-- Claim C8 (code-bug evidence): resolving an unknown renderer name fails,
but the error message does not contain the registered renderer names — the
`(Available: ...)` part of the message is a plain (non-f) string literal, so
its braces and the join expression survive verbatim in the message.
Resolving a registered name or a direct function reference succeeds. -/
theorem resolve_chord_render_message :
    (resolveErrMsg (.byName "nope".data)).map (fun e =>
        (containsSeg "play_simultaneously".data e,
         containsSeg "play_arpeggio".data e,
         containsSeg "(Available: \x7b\x22, \x22.join(chord_renders)\x7d)".data e))
      = some (false, false, true) ∧
    resolve_chord_render (.byName "play_simultaneously".data) = .ok playSimultaneouslyFn ∧
    resolve_chord_render (.byName "play_arpeggio".data) = .ok playArpeggioFn ∧
    (∀ f : PyRenderer, resolve_chord_render (.byFn f) = .ok f) :=
  ⟨by decide, by decide, by decide, fun f => rfl⟩

/-! ## Claim theorem: renderer registration -/

theorem find?_map_update {α : Type} (k : Str) (v : α) :
    ∀ d : List (Str × α), d.any (fun kv => decide (kv.1 = k)) = true →
      (d.map (fun kv => if kv.1 = k then (k, v) else kv)).find?
        (fun kv => decide (kv.1 = k)) = some (k, v) := by
  intro d
  induction d with
  | nil =>
    intro h
    cases h
  | cons hd tl IH =>
    intro h
    simp only [List.map_cons]
    by_cases hh : hd.1 = k
    · rw [if_pos hh]
      simp [List.find?_cons]
    · rw [if_neg hh]
      have h' : tl.any (fun kv => decide (kv.1 = k)) = true := by
        simp only [List.any_cons, Bool.or_eq_true, decide_eq_true_eq] at h
        rcases h with h | h
        · exact absurd h hh
        · exact h
      rw [List.find?_cons_of_neg _ (by simpa using hh)]
      exact IH h'

theorem find?_map_update_other {α : Type} (k k' : Str) (v : α) (hkk : k' ≠ k) :
    ∀ d : List (Str × α),
      (d.map (fun kv => if kv.1 = k then (k, v) else kv)).find?
        (fun kv => decide (kv.1 = k')) = d.find? (fun kv => decide (kv.1 = k')) := by
  intro d
  induction d with
  | nil => rfl
  | cons hd tl IH =>
    simp only [List.map_cons]
    by_cases hh : hd.1 = k
    · rw [if_pos hh]
      rw [List.find?_cons_of_neg _ (by simpa using fun h => hkk h.symm),
        List.find?_cons_of_neg _
          (by simp only [decide_eq_true_eq, hh]; exact fun h' => hkk h'.symm)]
      exact IH
    · rw [if_neg hh]
      by_cases hh' : hd.1 = k'
      · rw [List.find?_cons_of_pos _ (by simpa using hh'),
          List.find?_cons_of_pos _ (by simpa using hh')]
      · rw [List.find?_cons_of_neg _ (by simpa using hh'),
          List.find?_cons_of_neg _ (by simpa using hh')]
        exact IH

theorem dictGet_dictInsert_same {α : Type} (d : List (Str × α)) (k : Str) (v : α) :
    dictGet (dictInsert d k v) k = some v := by
  unfold dictInsert
  by_cases hany : d.any (fun kv => decide (kv.1 = k)) = true
  · rw [if_pos hany]
    unfold dictGet
    rw [find?_map_update k v d hany]
    rfl
  · rw [if_neg hany]
    unfold dictGet
    rw [List.find?_append]
    have hnone : d.find? (fun kv => decide (kv.1 = k)) = none := by
      rw [List.find?_eq_none]
      intro x hx
      simp only [decide_eq_true_eq]
      intro hxk
      exact hany (List.any_eq_true.mpr ⟨x, hx, by simpa using hxk⟩)
    rw [hnone]
    simp [List.find?_cons]

theorem dictGet_dictInsert_other {α : Type} (d : List (Str × α)) (k k' : Str) (v : α)
    (h : k' ≠ k) : dictGet (dictInsert d k v) k' = dictGet d k' := by
  unfold dictInsert
  by_cases hany : d.any (fun kv => decide (kv.1 = k)) = true
  · rw [if_pos hany]
    unfold dictGet
    rw [find?_map_update_other k k' v h d]
  · rw [if_neg hany]
    unfold dictGet
    rw [List.find?_append]
    have hlast : ([(k, v)] : List (Str × α)).find? (fun kv => decide (kv.1 = k')) = none := by
      rw [List.find?_eq_none]
      intro x hx
      simp only [List.mem_singleton] at hx
      subst hx
      simpa using fun hh => h hh.symm
    rw [hlast]
    cases d.find? (fun kv => decide (kv.1 = k')) <;> rfl

/-- Claim C10: `register_chord_render` stores the renderer in the registry
under the function's `__name__` attribute regardless of the explicitly
supplied registration name: the result is identical to registration with no
name, the renderer is found under its `__name__`, and the supplied name
resolves exactly as before the registration. -/
theorem register_chord_render_uses_fname (d : List (Str × PyRenderer))
    (r : PyRenderer) (nm : Str) :
    register_chord_render d r (some nm) = register_chord_render d r none ∧
    dictGet (register_chord_render d r (some nm)) r.fname = some r ∧
    (nm ≠ r.fname → dictGet (register_chord_render d r (some nm)) nm = dictGet d nm) := by
  refine ⟨rfl, ?_, ?_⟩
  · exact dictGet_dictInsert_same d r.fname r
  · intro h
    exact dictGet_dictInsert_other d r.fname nm r h

/-- Witness for C10: registering `play_arpeggio` under the explicit name
`custom` in an empty registry. -/
theorem register_chord_render_uses_fname_witness :
    register_chord_render [] playArpeggioFn (some "custom".data)
      = register_chord_render [] playArpeggioFn none ∧
    dictGet (register_chord_render [] playArpeggioFn (some "custom".data))
      playArpeggioFn.fname = some playArpeggioFn ∧
    dictGet (register_chord_render [] playArpeggioFn (some "custom".data)) "custom".data
      = dictGet [] "custom".data :=
  ⟨(register_chord_render_uses_fname [] playArpeggioFn "custom".data).1,
   (register_chord_render_uses_fname [] playArpeggioFn "custom".data).2.1,
   (register_chord_render_uses_fname [] playArpeggioFn "custom".data).2.2 (by decide)⟩
